import Mathlib

set_option maxHeartbeats 1000000

namespace LowVR

/-! # Verification of the lowvr comparison-view core

Shallow embedding of the multi-run metric alignment engine, the stale-data
guard, the cursor/pin controller, the layout resize redistribution and the
metric reorder operation of `src/frontend/src/components/ComparisonCharts.tsx`
and `src/frontend/src/hooks/useRuns.ts`.

Modelling conventions:
* a JS `number` is modelled as `ℚ`;
* a series entry of type `number | null` is `Option ℚ` (`none` = `null`);
* a possibly-absent object/array access (`undefined`) is an outer `Option`;
* `Record<string, T>` and `Map<string, T>` are association lists read through
  `List.lookup` (JS string keys compare with `===`, i.e. decidable equality).
-/

abbrev RunId := String
abbrev MetricName := String

/-- One metric's raw series for one run: `(number | null)[]`. -/
abbrev Series := List (Option ℚ)

/-- One run's fetched metrics: `Record<string, (number | null)[]>`. -/
abbrev RunData := List (MetricName × Series)

/-- The aggregate fetch result: `Map<string, Record<string, (number | null)[]>>`. -/
abbrev MetricsData := List (RunId × RunData)

/-- The access `stableMetricsData.get(runId)?.[metric]`; `none` models
`undefined` (run missing from the map, or metric key missing from the run). -/
def seriesAt (md : MetricsData) (r : RunId) (m : MetricName) : Option Series :=
  (md.lookup r).bind fun d => d.lookup m

/-- The `maxLen` computation of `chartDataByMetric` (ComparisonCharts.tsx
lines 150–156): `runIds.forEach(...)` folding `Math.max` of the series
lengths of the runs that have the metric key (a JS array is truthy even when
empty, so an empty series also passes the `if (data?.[metric])` test). -/
def metricMaxLen (md : MetricsData) (runIds : List RunId) (m : MetricName) : ℕ :=
  runIds.foldl
    (fun acc r =>
      match seriesAt md r m with
      | some s => max acc s.length
      | none => acc)
    0

/-- The JS access `stableMetricsData.get(r)?.[xKey]?.[i]`.  The outer `Option`
is `undefined` (map/key missing or index out of bounds), the inner `Option`
is a `null` stored in the series itself. -/
def xEntryAt (md : MetricsData) (r : RunId) (xKey : MetricName) (i : ℕ) :
    Option (Option ℚ) :=
  (seriesAt md r xKey).bind fun s => s.get? i

/-- The `xValue` resolution of `chartDataByMetric` (lines 159–168):
`runIds.find(runId => data?.[xAxisKey]?.[i] !== undefined)` followed by
`xValue = data?.[xAxisKey]?.[i] ?? i`.  Note that a stored `null` passes the
`!== undefined` test but is then coalesced by `??` to the raw index `i`. -/
def resolveX (md : MetricsData) (runIds : List RunId) (xKey : MetricName)
    (i : ℕ) : ℚ :=
  match runIds.find? (fun r => (xEntryAt md r xKey i).isSome) with
  | some r =>
    match xEntryAt md r xKey i with
    | some (some v) => v
    | _ => (i : ℚ)
  | none => (i : ℚ)

/-- One aligned point `{ xValue, [runId]: number | null }`. -/
structure AlignedPoint where
  xValue : ℚ
  entries : List (RunId × Option ℚ)
  deriving DecidableEq, Repr

/-- The aligned sequence `chartDataByMetric` builds for one metric `m`
(lines 158–176): for each `i < maxLen`, resolve the shared `xValue` and set
`point[runId] = data?.[metric]?.[i] ?? null` for every run. -/
def chartDataForMetric (md : MetricsData) (runIds : List RunId)
    (xKey m : MetricName) : List AlignedPoint :=
  (List.range (metricMaxLen md runIds m)).map fun i =>
    { xValue := resolveX md runIds xKey i
      entries := runIds.map fun r => (r, ((seriesAt md r m).bind fun s => s.get? i).join) }

/-- The full `chartDataByMetric` record: one aligned sequence per active
metric, skipping the metric equal to `xAxisKey` (the `continue` on
line 148). -/
def chartDataByMetric (md : MetricsData) (runIds : List RunId)
    (activeMetrics : List MetricName) (xKey : MetricName) :
    List (MetricName × List AlignedPoint) :=
  (activeMetrics.filter fun m => m != xKey).map fun m =>
    (m, chartDataForMetric md runIds xKey m)

/-! ### Helper lemmas -/

/-- Looking up a key in an association list built by pairing each list element
with a function of itself returns that function of the key, whenever the key
occurs in the list. -/
theorem lookup_map_self {α β : Type} [BEq α] [LawfulBEq α] (f : α → β) :
    ∀ (l : List α) (a : α), a ∈ l →
      ((l.map fun x => (x, f x)).lookup a) = some (f a) := by
  intro l a h
  induction l with
  | nil => cases h
  | cons b tl ih =>
    by_cases hab : a = b
    · subst hab
      simp [List.lookup]
    · have hb : (a == b) = false := by
        simp [hab]
      have hmem : a ∈ tl := by
        cases h with
        | head => exact absurd rfl hab
        | tail _ h' => exact h'
      simpa [List.lookup, hb] using ih hmem

/-- The accumulator of the `maxLen` fold never decreases. -/
theorem metricMaxLen_fold_ge (md : MetricsData) (m : MetricName) :
    ∀ (l : List RunId) (acc : ℕ),
      acc ≤ l.foldl
        (fun acc r =>
          match seriesAt md r m with
          | some s => max acc s.length
          | none => acc)
        acc := by
  intro l
  induction l with
  | nil => intro acc; simp
  | cons r tl ih =>
    intro acc
    refine le_trans ?_ (ih _)
    cases hs : seriesAt md r m with
    | none => simp only [hs]; exact le_refl _
    | some s => simp only [hs]; exact Nat.le_max_left _ _

/-- Every run's series length is bounded by the `maxLen` fold result. -/
theorem metricMaxLen_fold_bound (md : MetricsData) (m : MetricName) :
    ∀ (l : List RunId) (acc : ℕ) (r : RunId), r ∈ l →
      ∀ s, seriesAt md r m = some s →
        s.length ≤ l.foldl
          (fun acc r =>
            match seriesAt md r m with
            | some s => max acc s.length
            | none => acc)
          acc := by
  intro l
  induction l with
  | nil => intro acc r h; cases h
  | cons b tl ih =>
    intro acc r h s hs
    cases h with
    | head =>
      refine le_trans ?_ (metricMaxLen_fold_ge md m tl _)
      simp [hs]
    | tail _ h' => exact ih _ r h' s hs

/-- The `maxLen` fold result is the accumulator or some run's series length. -/
theorem metricMaxLen_fold_achieved (md : MetricsData) (m : MetricName) :
    ∀ (l : List RunId) (acc : ℕ),
      l.foldl
        (fun acc r =>
          match seriesAt md r m with
          | some s => max acc s.length
          | none => acc)
        acc = acc ∨
      ∃ r ∈ l, ∃ s, seriesAt md r m = some s ∧
        l.foldl
          (fun acc r =>
            match seriesAt md r m with
            | some s => max acc s.length
            | none => acc)
          acc = s.length := by
  intro l
  induction l with
  | nil => intro acc; left; rfl
  | cons b tl ih =>
    intro acc
    cases hs : seriesAt md b m with
    | none =>
      rcases ih acc with h | ⟨r, hr, s, hsr, hres⟩
      · left
        simpa [List.foldl, hs] using h
      · right
        exact ⟨r, List.mem_cons_of_mem _ hr, s, hsr, by simpa [List.foldl, hs] using hres⟩
    | some s =>
      rcases ih (max acc s.length) with h | ⟨r, hr, s', hsr, hres⟩
      · rcases Nat.le_total acc s.length with hle | hle
        · right
          refine ⟨b, List.mem_cons_self _ _, s, hs, ?_⟩
          simpa [List.foldl, hs, Nat.max_eq_right hle] using h
        · left
          simpa [List.foldl, hs, Nat.max_eq_left hle] using h
      · right
        exact ⟨r, List.mem_cons_of_mem _ hr, s', hsr, by simpa [List.foldl, hs] using hres⟩

theorem length_chartDataForMetric (md : MetricsData) (runIds : List RunId)
    (xKey m : MetricName) :
    (chartDataForMetric md runIds xKey m).length = metricMaxLen md runIds m := by
  simp [chartDataForMetric]

/-- The point at index `i` of the aligned sequence, explicitly. -/
theorem chartDataForMetric_get? (md : MetricsData) (runIds : List RunId)
    (xKey m : MetricName) (i : ℕ) (hi : i < metricMaxLen md runIds m) :
    (chartDataForMetric md runIds xKey m).get? i =
      some { xValue := resolveX md runIds xKey i
             entries := runIds.map fun r =>
               (r, ((seriesAt md r m).bind fun s => s.get? i).join) } := by
  rw [chartDataForMetric, List.get?_eq_getElem?, List.getElem?_map,
    List.getElem?_range hi]
  rfl

/-! ### C1: aligner length and padding invariants -/

/-- C1: For every run set, raw-series map, metric `m` and x-axis key, the
aligned output for `m` has length equal to the maximum over the runs of the
length of that run's raw series for `m` (`0` if no run has `m`), and every
run whose series has length `L` below that maximum has a `null` entry at
every aligned index `≥ L` (no forward-fill).  The first conjunct gives the
length as the code's fold, the next two show that fold is exactly the
maximum (an upper bound that is `0` or achieved), and the last is the
padding invariant. -/
theorem C1_aligner_length_and_padding :
    ∀ (md : MetricsData) (runIds : List RunId) (xKey m : MetricName),
      ((chartDataForMetric md runIds xKey m).length = metricMaxLen md runIds m)
      ∧ (∀ r ∈ runIds, ∀ s, seriesAt md r m = some s →
          s.length ≤ (chartDataForMetric md runIds xKey m).length)
      ∧ ((chartDataForMetric md runIds xKey m).length = 0 ∨
          ∃ r ∈ runIds, ∃ s, seriesAt md r m = some s ∧
            s.length = (chartDataForMetric md runIds xKey m).length)
      ∧ (∀ r ∈ runIds, ∀ s, seriesAt md r m = some s →
          ∀ i, s.length ≤ i →
            ∀ pt, (chartDataForMetric md runIds xKey m).get? i = some pt →
              pt.entries.lookup r = some none) := by
  intro md runIds xKey m
  refine ⟨length_chartDataForMetric md runIds xKey m, ?_, ?_, ?_⟩
  · intro r hr s hs
    rw [length_chartDataForMetric]
    exact metricMaxLen_fold_bound md m runIds 0 r hr s hs
  · rw [length_chartDataForMetric]
    rcases metricMaxLen_fold_achieved md m runIds 0 with h | ⟨r, hr, s, hsr, hres⟩
    · left; exact h
    · right; exact ⟨r, hr, s, hsr, hres.symm⟩
  · intro r hr s hs i hile pt hget
    have hlen : i < (chartDataForMetric md runIds xKey m).length := by
      rcases List.get?_eq_some.mp hget with ⟨h, _⟩
      exact h
    have hmax : i < metricMaxLen md runIds m := by
      rwa [length_chartDataForMetric] at hlen
    rw [chartDataForMetric_get? md runIds xKey m i hmax] at hget
    injection hget with hpt
    have hentries : pt.entries =
        runIds.map fun r' => (r', ((seriesAt md r' m).bind fun s => s.get? i).join) := by
      rw [← hpt]
    rw [hentries,
      lookup_map_self (fun r' => ((seriesAt md r' m).bind fun s => s.get? i).join) runIds r hr]
    have hv : ((seriesAt md r m).bind fun s => s.get? i) = none := by
      rw [hs]
      simpa using hile
    rw [hv]
    rfl

/-- Concrete aligner input: run `r1` has a length-3 `loss` series, run `r2`
a length-1 `loss` series, and neither run has a `_step` series. -/
def C1md : MetricsData :=
  [("r1", [("loss", [some 1, some 2, some 3])]),
   ("r2", [("loss", [some 4])])]

theorem C1_aligner_length_and_padding_witness :
    (chartDataForMetric C1md ["r1", "r2"] "_step" "loss").length = 3
    ∧ ((chartDataForMetric C1md ["r1", "r2"] "_step" "loss").get? 2).map
        (fun pt => pt.entries.lookup "r2") = some (some none) := by
  have h := C1_aligner_length_and_padding C1md ["r1", "r2"] "_step" "loss"
  constructor
  · rw [h.1]
    decide
  · have hg : (chartDataForMetric C1md ["r1", "r2"] "_step" "loss").get? 2 =
        some ⟨(2 : ℚ), [("r1", some 3), ("r2", none)]⟩ := by decide
    have hp := h.2.2.2 "r2" (by decide) [some 4] (by decide) 2 (by decide)
        ⟨(2 : ℚ), [("r1", some 3), ("r2", none)]⟩ hg
    rw [hg]
    simpa using hp

/-! ### C2: xValue resolution -/

/-- Claim model for C2 (the claim's words, with "defined" read as: the series
actually carries a numeric value there): scan `runIds` in order and take the
value of `rawSeries[run][xAxisKey][i]` from the first run for which that
value is a number; if no run has such a value at `i`, use the raw index `i`. -/
def resolveXClaim (md : MetricsData) (runIds : List RunId) (xKey : MetricName)
    (i : ℕ) : ℚ :=
  match runIds.find? (fun r =>
      match xEntryAt md r xKey i with
      | some (some _) => true
      | _ => false) with
  | some r =>
    match xEntryAt md r xKey i with
    | some (some v) => v
    | _ => (i : ℚ)
  | none => (i : ℚ)

/-- Aligner input refuting C2 as stated: run `A` stores a `null` at index 0
of the x-axis series `s`, run `B` stores the number `5` there. -/
def C2md : MetricsData :=
  [("A", [("s", [none]), ("m", [some 1])]),
   ("B", [("s", [some 5]), ("m", [some 2])])]

/-- C2 counterexample: with `runIds = [A, B]`, the first run whose x-axis
series has a defined (numeric) value at index 0 is `B`, with value `5` —
but the code's `!== undefined` test already selects `A` (whose entry is a
stored `null`) and the `?? i` coalescing then falls back to the raw index,
so the produced `xValue` is `0`, not `5` (and not `A`'s entry, which is not
a number at all).  This refutes the claim as stated. -/
theorem C2_counterexample_null_entry :
    ((chartDataForMetric C2md ["A", "B"] "s" "m").get? 0).map (fun pt => pt.xValue)
        = some 0
    ∧ resolveXClaim C2md ["A", "B"] "s" 0 = 5
    ∧ (0 : ℚ) ≠ 5 := by
  refine ⟨by decide, by decide, by decide⟩

/-- Helper: a successful `find?` splits the list into a prefix on which the
predicate is false, the found element, and a suffix. -/
theorem find?_eq_some_split {α : Type} (p : α → Bool) :
    ∀ {l : List α} {a : α}, l.find? p = some a →
      ∃ l₁ l₂, l = l₁ ++ a :: l₂ ∧ (∀ x ∈ l₁, p x = false) ∧ p a = true := by
  intro l
  induction l with
  | nil => intro a h; cases h
  | cons b tl ih =>
    intro a h
    cases hb : p b with
    | true =>
      rw [List.find?_cons_of_pos _ hb] at h
      cases h
      exact ⟨[], tl, rfl, by simp, hb⟩
    | false =>
      rw [List.find?_cons_of_neg _ (by simp [hb])] at h
      obtain ⟨l₁, l₂, hsplit, h₁, h₂⟩ := ih h
      refine ⟨b :: l₁, l₂, by rw [hsplit]; rfl, ?_, h₂⟩
      intro x hx
      rcases List.mem_cons.mp hx with rfl | hx'
      · exact hb
      · exact h₁ x hx'

/-- C2 amended: the `xValue` at index `i` is taken from the first run, in
`runIds` order, whose x-axis series has an entry at index `i` at all (a
stored `null` counts as an entry): if that entry is a number `v` then
`xValue = v`, and if it is a `null` then `xValue` falls back to the raw
index `i`; if no run has an entry at `i`, `xValue = i`.  (Determinism is
immediate: the aligned output is a pure function of its inputs.) -/
theorem C2_xvalue_resolution_amended :
    ∀ (md : MetricsData) (runIds : List RunId) (xKey m : MetricName) (i : ℕ)
      (pt : AlignedPoint),
      (chartDataForMetric md runIds xKey m).get? i = some pt →
      ((∃ l₁ r l₂, runIds = l₁ ++ r :: l₂
          ∧ (∀ r' ∈ l₁, xEntryAt md r' xKey i = none)
          ∧ ((∃ v, xEntryAt md r xKey i = some (some v) ∧ pt.xValue = v)
            ∨ (xEntryAt md r xKey i = some none ∧ pt.xValue = (i : ℚ))))
        ∨ ((∀ r ∈ runIds, xEntryAt md r xKey i = none) ∧ pt.xValue = (i : ℚ))) := by
  intro md runIds xKey m i pt hget
  have hlen : i < (chartDataForMetric md runIds xKey m).length := by
    rcases List.get?_eq_some.mp hget with ⟨h, _⟩
    exact h
  have hmax : i < metricMaxLen md runIds m := by
    rwa [length_chartDataForMetric] at hlen
  rw [chartDataForMetric_get? md runIds xKey m i hmax] at hget
  injection hget with hpt
  have hx : pt.xValue = resolveX md runIds xKey i := by rw [← hpt]
  cases hfind : runIds.find? (fun r => (xEntryAt md r xKey i).isSome) with
  | none =>
    right
    constructor
    · intro r hr
      have := List.find?_eq_none.mp hfind r hr
      exact Option.not_isSome_iff_eq_none.mp (by simpa using this)
    · rw [hx]
      simp only [resolveX, hfind]
  | some r =>
    left
    obtain ⟨l₁, l₂, hsplit, h₁, h₂⟩ := find?_eq_some_split _ hfind
    refine ⟨l₁, r, l₂, hsplit, ?_, ?_⟩
    · intro r' hr'
      exact Option.not_isSome_iff_eq_none.mp (by simpa using h₁ r' hr')
    · cases he : xEntryAt md r xKey i with
      | none =>
        rw [he] at h₂
        simp at h₂
      | some o =>
        cases o with
        | none =>
          right
          refine ⟨rfl, ?_⟩
          rw [hx]
          simp only [resolveX, hfind, he]
        | some v =>
          left
          refine ⟨v, rfl, ?_⟩
          rw [hx]
          simp only [resolveX, hfind, he]

theorem C2_xvalue_resolution_amended_witness :
    ((chartDataForMetric C2md ["B"] "s" "m").get? 0).map (fun pt => pt.xValue)
      = some 5 := by
  have hg : (chartDataForMetric C2md ["B"] "s" "m").get? 0 =
      some ⟨(5 : ℚ), [("B", some 2)]⟩ := by decide
  have h := C2_xvalue_resolution_amended C2md ["B"] "s" "m" 0
      ⟨(5 : ℚ), [("B", some 2)]⟩ hg
  rw [hg]
  rcases h with ⟨l₁, r, l₂, hsplit, _, hval⟩ | ⟨hall, _⟩
  · cases l₁ with
    | nil =>
      rw [List.nil_append] at hsplit
      injection hsplit with hr htl
      subst hr
      rcases hval with ⟨v, hv, hxv⟩ | ⟨hv, hxv⟩
      · simp
      · exact absurd hv (by decide)
    | cons b t =>
      have hlen := congrArg List.length hsplit
      simp [List.length_append] at hlen
  · exact absurd (hall "B" (by decide)) (by decide)

/-! ### C4: StaleDataGuard

ComparisonCharts.tsx lines 39–45: `lastMetricsDataRef` starts as `null`; on
every render, if `metricsData && metricsData.size > 0` the ref is replaced,
and `stableMetricsData` is the fresh data when non-empty, else the ref.
Lines 240–246: the loading placeholder renders only when
`isLoading && (!stableMetricsData || stableMetricsData.size === 0)`.

A fetch resolution is `Option MetricsData`: `none` models `metricsData`
being `undefined` (query unresolved), `some d` a resolved aggregate of size
`d.length`. -/

abbrev FetchResult := Option MetricsData

/-- Size of a fetch resolution: `metricsData.size`, `0` when `undefined`. -/
def resSize : FetchResult → ℕ
  | none => 0
  | some d => d.length

/-- One render step of the guard: the held value after seeing `res`.  This is
simultaneously the updated `lastMetricsDataRef.current` and the
`stableMetricsData` read on that render (when `res` is non-empty both equal
`res`; otherwise both equal the previous held value). -/
def guardStep (held : Option MetricsData) (res : FetchResult) : Option MetricsData :=
  match res with
  | some d => if 0 < d.length then some d else held
  | none => held

/-- The guard value after a history of fetch resolutions, starting from the
initial `null` ref. -/
def guardFold (hist : List FetchResult) : Option MetricsData :=
  hist.foldl guardStep none

/-- The loading-placeholder condition of lines 240–246. -/
def showLoading (isLoading : Bool) (stable : Option MetricsData) : Bool :=
  isLoading && (match stable with
    | none => true
    | some d => d.length == 0)

/-- Helper: the guard never holds an empty aggregate, and it is `none` only
when every resolution seen so far was empty. -/
theorem guardFold_none_of_fold (hist : List FetchResult) :
    ∀ held, hist.foldl guardStep held = none →
      held = none ∧ ∀ res ∈ hist, resSize res = 0 := by
  induction hist with
  | nil =>
    intro held h
    exact ⟨h, by intro res hres; cases hres⟩
  | cons r tl ih =>
    intro held h
    obtain ⟨hstep, htl⟩ := ih (guardStep held r) h
    have hr : held = none ∧ resSize r = 0 := by
      cases r with
      | none => exact ⟨hstep, rfl⟩
      | some d =>
        by_cases hd : 0 < d.length
        · rw [guardStep, if_pos hd] at hstep
          cases hstep
        · rw [guardStep, if_neg hd] at hstep
          exact ⟨hstep, by simpa [resSize] using Nat.le_of_not_lt hd⟩
    refine ⟨hr.1, ?_⟩
    intro res hres
    rcases List.mem_cons.mp hres with rfl | hmem
    · exact hr.2
    · exact htl res hmem

/-- Helper: whenever the guard holds a value, that value is non-empty. -/
theorem guardFold_pos_of_fold (hist : List FetchResult) :
    ∀ held, (∀ d, held = some d → 0 < d.length) →
      ∀ d, hist.foldl guardStep held = some d → 0 < d.length := by
  induction hist with
  | nil =>
    intro held hheld d h
    exact hheld d h
  | cons r tl ih =>
    intro held hheld d h
    refine ih (guardStep held r) ?_ d h
    intro d' hd'
    cases r with
    | none => exact hheld d' hd'
    | some e =>
      by_cases he : 0 < e.length
      · rw [guardStep, if_pos he] at hd'
        injection hd' with hde
        rw [← hde]
        exact he
      · rw [guardStep, if_neg he] at hd'
        exact hheld d' hd'

/-- C4: on every fetch resolution a non-empty aggregate replaces the held
value and an empty one leaves it unchanged, and the loading placeholder is
rendered only in histories in which no non-empty aggregate was ever
received. -/
theorem C4_stale_data_guard :
    (∀ (held : Option MetricsData) (d : MetricsData), 0 < d.length →
        guardStep held (some d) = some d)
    ∧ (∀ (held : Option MetricsData) (res : FetchResult), resSize res = 0 →
        guardStep held res = held)
    ∧ (∀ (hist : List FetchResult) (isLoading : Bool),
        showLoading isLoading (guardFold hist) = true →
        ∀ res ∈ hist, resSize res = 0) := by
  refine ⟨?_, ?_, ?_⟩
  · intro held d hd
    rw [guardStep, if_pos hd]
  · intro held res hres
    cases res with
    | none => rfl
    | some d =>
      have : ¬ 0 < d.length := by
        simp only [resSize] at hres
        omega
      rw [guardStep, if_neg this]
  · intro hist isLoading hshow
    cases hstable : guardFold hist with
    | none => exact (guardFold_none_of_fold hist none hstable).2
    | some d =>
      exfalso
      have hpos : 0 < d.length :=
        guardFold_pos_of_fold hist none (by intro d' h; cases h) d hstable
      simp [showLoading, hstable] at hshow
      rw [hshow.2] at hpos
      simp at hpos

theorem C4_stale_data_guard_witness :
    guardStep (some [("r1", [("loss", [some 1])])]) (some []) =
        some [("r1", [("loss", [some 1])])]
    ∧ guardStep none (some [("r1", [("loss", [some 1])])]) =
        some [("r1", [("loss", [some 1])])] := by
  constructor
  · exact C4_stale_data_guard.2.1 (some [("r1", [("loss", [some 1])])])
      (some []) (by decide)
  · exact C4_stale_data_guard.1 none [("r1", [("loss", [some 1])])] (by decide)

/-! ### C5: multi-run fetch aggregation

`useMultiRunMetrics` (useRuns.ts lines 113–140): one `fetch` per run inside
`Promise.all`; a run with `res.ok` has its decoded body inserted into the
result map, a run with a non-OK response is silently skipped, and a rejected
fetch (network error / thrown exception) rejects the whole `Promise.all`,
failing the query.  An outcome is modelled per run; the aggregate is
`Except Unit MetricsData` (`Except.error` = the query function threw). -/

inductive FetchOutcome where
  | ok (d : RunData)
  | httpError
  | rejected
  deriving DecidableEq

/-- Whether a run's fetch rejected (threw), which rejects `Promise.all`. -/
def outcomeRejected : FetchOutcome → Bool
  | .rejected => true
  | _ => false

/-- Whether a run's fetch failed in any way (non-OK response or rejection);
the repository's single-run hooks treat a non-OK response as
`Failed to fetch metrics`. -/
def outcomeFailed : FetchOutcome → Bool
  | .ok _ => false
  | _ => true

/-- The aggregate one fetch cycle produces: if any run's fetch rejects the
whole `Promise.all` rejects and the query fails; otherwise the result map
holds exactly the runs whose responses were OK (`if (res.ok)
results.set(...)`), the non-OK runs being skipped individually. -/
def multiRunMetricsAggregate (runIds : List RunId) (f : RunId → FetchOutcome) :
    Except Unit MetricsData :=
  if runIds.any (fun r => outcomeRejected (f r)) then Except.error ()
  else Except.ok (runIds.filterMap fun r =>
    match f r with
    | .ok d => some (r, d)
    | _ => none)

/-- Fetch outcomes refuting C5: run `r1` gets a non-OK response while run
`r2` succeeds with a one-series payload. -/
def C5fetch : RunId → FetchOutcome :=
  fun r => if r = "r2" then .ok [("loss", [some 1])] else .httpError

/-- C5 counterexample: the fetch for `r1` fails (non-OK response), yet the
aggregate for the cycle does not fail as a whole — it succeeds and still
contains `r2`'s data, so the all-or-nothing claim is false as stated. -/
theorem C5_counterexample_partial_aggregate :
    outcomeFailed (C5fetch "r1") = true
    ∧ multiRunMetricsAggregate ["r1", "r2"] C5fetch =
        Except.ok [("r2", [("loss", [some 1])])]
    ∧ ("r2", [("loss", [some 1])]) ∈
        ([("r2", [("loss", [some 1])])] : MetricsData) := by
  refine ⟨by decide, by rfl, by decide⟩

/-- C5 amended: only a rejected (thrown) fetch fails the whole aggregate for
the cycle; a run whose fetch resolves with a non-OK response is omitted
individually, while every run with an OK response keeps its data in the
aggregate. -/
theorem C5_fetch_aggregation_amended :
    ∀ (runIds : List RunId) (f : RunId → FetchOutcome),
      ((∃ r ∈ runIds, f r = .rejected) →
        multiRunMetricsAggregate runIds f = Except.error ())
      ∧ (∀ md, multiRunMetricsAggregate runIds f = Except.ok md →
          (∀ r ∈ runIds, f r = .httpError → ∀ d, (r, d) ∉ md)
          ∧ (∀ r ∈ runIds, ∀ d, f r = .ok d → (r, d) ∈ md)) := by
  intro runIds f
  constructor
  · rintro ⟨r, hr, hrej⟩
    rw [multiRunMetricsAggregate, if_pos]
    rw [List.any_eq_true]
    exact ⟨r, hr, by rw [hrej]; rfl⟩
  · intro md hmd
    by_cases hany : runIds.any (fun r => outcomeRejected (f r)) = true
    · rw [multiRunMetricsAggregate, if_pos hany] at hmd
      cases hmd
    · rw [multiRunMetricsAggregate, if_neg hany] at hmd
      injection hmd with hmd
      constructor
      · intro r hr hhttp d hmem
        rw [← hmd] at hmem
        obtain ⟨a, ha, hsome⟩ := List.mem_filterMap.mp hmem
        cases hfa : f a with
        | ok e =>
          rw [hfa] at hsome
          injection hsome with hpair
          have : a = r := congrArg Prod.fst hpair
          rw [this, hhttp] at hfa
          cases hfa
        | httpError => rw [hfa] at hsome; cases hsome
        | rejected => rw [hfa] at hsome; cases hsome
      · intro r hr d hok
        rw [← hmd]
        refine List.mem_filterMap.mpr ⟨r, hr, ?_⟩
        rw [hok]

theorem C5_fetch_aggregation_amended_witness :
    multiRunMetricsAggregate ["r1", "r2"]
        (fun _ => FetchOutcome.rejected) = Except.error ()
    ∧ ("r2", [("loss", [some 1])]) ∈
        ([("r2", [("loss", [some 1])])] : MetricsData) := by
  constructor
  · exact (C5_fetch_aggregation_amended ["r1", "r2"]
      (fun _ => FetchOutcome.rejected)).1 ⟨"r1", by decide, rfl⟩
  · exact (C5_fetch_aggregation_amended ["r1", "r2"] C5fetch).2
      [("r2", [("loss", [some 1])])] (by rfl) |>.2 "r2" (by decide)
      [("loss", [some 1])] (by rfl)

/-! ### Cursor controller: pinned x-value and prev/next navigation

ComparisonCharts.tsx lines 202–205 (`pinnedIndex`), 360–377 (prev button),
423–444 (next button).  The x-value type is modelled generically (the code
stores `number | string`); `jsIndexOf` models `Array.prototype.findIndex`
with an `===` comparison, returning `-1` when the value is absent. -/

section Cursor

variable {X : Type} [DecidableEq X] [Inhabited X]

/-- JS `xs.findIndex(val => val === v)`: the first index holding `v`, `-1`
if `v` does not occur. -/
def jsIndexOf (xs : List X) (v : X) : Int :=
  match xs with
  | [] => -1
  | a :: tl =>
    if a = v then 0
    else if jsIndexOf tl v = -1 then -1 else jsIndexOf tl v + 1

/-- Lines 202–205: `pinnedXValue === null ? -1 :
xAxisValueOptions.findIndex(val => val === pinnedXValue)`. -/
def pinnedIndex (xs : List X) (pinned : Option X) : Int :=
  match pinned with
  | none => -1
  | some v => jsIndexOf xs v

/-- The prev-button click handler (lines 360–377): no-op when the option
list is empty or `pinnedIndex <= 0`, else pin `xs[pinnedIndex - 1]`.
A no-op leaves `pinnedXValue` unchanged.  (The indices used are always in
bounds; `getD` supplies an unreachable default.) -/
def prevClick (xs : List X) (pinned : Option X) : Option X :=
  if xs.length = 0 then pinned
  else if pinnedIndex xs pinned ≤ 0 then pinned
  else some (xs.getD (pinnedIndex xs pinned - 1).toNat default)

/-- The next-button click handler (lines 423–444): no-op when the option
list is empty; pin `xs[0]` when `pinnedIndex === -1`; no-op when
`pinnedIndex >= xs.length - 1`; else pin `xs[pinnedIndex + 1]`. -/
def nextClick (xs : List X) (pinned : Option X) : Option X :=
  if xs.length = 0 then pinned
  else if pinnedIndex xs pinned = -1 then some (xs.getD 0 default)
  else if (xs.length : Int) - 1 ≤ pinnedIndex xs pinned then pinned
  else some (xs.getD (pinnedIndex xs pinned + 1).toNat default)

theorem jsIndexOf_nonneg_of_ne (xs : List X) (v : X)
    (h : jsIndexOf xs v ≠ -1) : 0 ≤ jsIndexOf xs v := by
  induction xs with
  | nil => exact absurd rfl h
  | cons a tl ih =>
    by_cases hav : a = v
    · simp [jsIndexOf, hav]
    · by_cases hr : jsIndexOf tl v = -1
      · simp only [jsIndexOf] at h
        rw [if_neg hav, if_pos hr] at h
        exact absurd rfl h
      · simp only [jsIndexOf]
        rw [if_neg hav, if_neg hr]
        have := ih hr
        omega

theorem jsIndexOf_eq_neg_one_iff (xs : List X) (v : X) :
    jsIndexOf xs v = -1 ↔ v ∉ xs := by
  induction xs with
  | nil => simp [jsIndexOf]
  | cons a tl ih =>
    by_cases hav : a = v
    · subst hav
      simp [jsIndexOf]
    · by_cases hr : jsIndexOf tl v = -1
      · simp only [jsIndexOf]
        rw [if_neg hav, if_pos hr]
        simp [List.mem_cons, ih.mp hr]
        exact fun h => hav h.symm
      · simp only [jsIndexOf]
        rw [if_neg hav, if_neg hr]
        have h0 : 0 ≤ jsIndexOf tl v := jsIndexOf_nonneg_of_ne tl v hr
        have hmem : v ∈ tl := by
          by_contra hmem
          exact hr (ih.mpr hmem)
        constructor
        · intro h
          omega
        · intro h
          exact absurd (List.mem_cons_of_mem _ hmem) h

/-- A found index is in bounds and the list holds `v` there. -/
theorem jsIndexOf_spec (xs : List X) (v : X) (h : jsIndexOf xs v ≠ -1) :
    0 ≤ jsIndexOf xs v ∧ jsIndexOf xs v < xs.length ∧
      xs.getD (jsIndexOf xs v).toNat default = v := by
  induction xs with
  | nil => exact absurd rfl h
  | cons a tl ih =>
    by_cases hav : a = v
    · refine ⟨?_, ?_, ?_⟩
      · simp [jsIndexOf, hav]
      · simp only [jsIndexOf, List.length_cons]
        rw [if_pos hav]
        push_cast
        omega
      · simp only [jsIndexOf]
        rw [if_pos hav]
        simpa using hav
    · by_cases hr : jsIndexOf tl v = -1
      · simp only [jsIndexOf] at h
        rw [if_neg hav, if_pos hr] at h
        exact absurd rfl h
      · obtain ⟨h0, hlt, hval⟩ := ih hr
        have htn : (jsIndexOf tl v + 1).toNat = (jsIndexOf tl v).toNat + 1 := by
          omega
        refine ⟨?_, ?_, ?_⟩
        · simp only [jsIndexOf]
          rw [if_neg hav, if_neg hr]
          omega
        · simp only [jsIndexOf, List.length_cons]
          rw [if_neg hav, if_neg hr]
          push_cast
          push_cast at hlt
          omega
        · simp only [jsIndexOf]
          rw [if_neg hav, if_neg hr, htn, List.getD_cons_succ]
          exact hval

/-- The found pinned index is in bounds. -/
theorem pinnedIndex_ne_spec (xs : List X) (pinned : Option X)
    (h : pinnedIndex xs pinned ≠ -1) :
    0 ≤ pinnedIndex xs pinned ∧ pinnedIndex xs pinned < xs.length := by
  cases pinned with
  | none => exact absurd rfl h
  | some v =>
    obtain ⟨h0, hlt, _⟩ := jsIndexOf_spec xs v h
    exact ⟨h0, hlt⟩

/-- An in-bounds `getD` access returns a member of the list. -/
theorem getD_mem_of_lt (xs : List X) (k : ℕ) (h : k < xs.length) :
    xs.getD k default ∈ xs := by
  rw [List.getD_eq_get?, List.get?_eq_get h, Option.getD_some]
  exact List.get_mem xs k h

/-- C6: with `p = pinnedIndex xs pinned` (`-1` when the pin is unset or
absent): `prev` is a no-op when `p ≤ 0` and otherwise pins `xs[p-1]`;
`next` is a no-op when `p = -1` and `xs` is empty, pins `xs[0]` when
`p = -1` and `xs` is non-empty, is a no-op when `p ≥ len(xs)-1`, and
otherwise pins `xs[p+1]`; the produced indices are always within
`[0, len(xs))`. -/
theorem C6_pin_navigation :
    ∀ (xs : List ℤ) (pinned : Option ℤ),
      xs.Sorted (· ≤ ·) → xs.Nodup →
      ((pinnedIndex xs pinned ≤ 0 → prevClick xs pinned = pinned)
      ∧ (0 < pinnedIndex xs pinned →
          prevClick xs pinned =
            some (xs.getD (pinnedIndex xs pinned - 1).toNat default)
          ∧ (pinnedIndex xs pinned - 1).toNat < xs.length)
      ∧ (pinnedIndex xs pinned = -1 → xs = [] → nextClick xs pinned = pinned)
      ∧ (pinnedIndex xs pinned = -1 → xs ≠ [] →
          nextClick xs pinned = some (xs.getD 0 default))
      ∧ (pinnedIndex xs pinned ≠ -1 →
          (xs.length : Int) - 1 ≤ pinnedIndex xs pinned →
          nextClick xs pinned = pinned)
      ∧ (pinnedIndex xs pinned ≠ -1 →
          pinnedIndex xs pinned < (xs.length : Int) - 1 →
          nextClick xs pinned =
            some (xs.getD (pinnedIndex xs pinned + 1).toNat default)
          ∧ (pinnedIndex xs pinned + 1).toNat < xs.length)) := by
  intro xs pinned _ _
  refine ⟨?_, ?_, ?_, ?_, ?_, ?_⟩
  · intro hp
    by_cases h1 : xs.length = 0
    · rw [prevClick, if_pos h1]
    · rw [prevClick, if_neg h1, if_pos hp]
  · intro hp
    have hne : pinnedIndex xs pinned ≠ -1 := by omega
    obtain ⟨h0, hlt⟩ := pinnedIndex_ne_spec xs pinned hne
    have hlen : xs.length ≠ 0 := by
      intro hl
      rw [hl] at hlt
      simp at hlt
      omega
    refine ⟨?_, by omega⟩
    rw [prevClick, if_neg hlen, if_neg (by omega)]
  · intro hp hxs
    subst hxs
    rfl
  · intro hp hxs
    have hlen : xs.length ≠ 0 := fun h => hxs (List.length_eq_zero.mp h)
    rw [nextClick, if_neg hlen, if_pos hp]
  · intro hp hge
    obtain ⟨h0, hlt⟩ := pinnedIndex_ne_spec xs pinned hp
    have hlen : xs.length ≠ 0 := by
      intro hl
      rw [hl] at hlt
      simp at hlt
      omega
    rw [nextClick, if_neg hlen, if_neg hp, if_pos hge]
  · intro hp hlt2
    obtain ⟨h0, hlt⟩ := pinnedIndex_ne_spec xs pinned hp
    have hlen : xs.length ≠ 0 := by
      intro hl
      rw [hl] at hlt
      simp at hlt
      omega
    refine ⟨?_, by omega⟩
    rw [nextClick, if_neg hlen, if_neg hp, if_neg (by omega)]

theorem C6_pin_navigation_witness :
    prevClick [0, 10, 20] (some (10 : ℤ)) = some 0
    ∧ nextClick [0, 10, 20] (some (10 : ℤ)) = some 20 := by
  have h := C6_pin_navigation [0, 10, 20] (some 10) (by decide) (by decide)
  constructor
  · rw [(h.2.1 (by decide)).1]
    decide
  · rw [(h.2.2.2.2.2 (by decide) (by decide)).1]
    decide

/-! ### C7 / reachability of a stale pin -/

/-- A user event on the cursor subsystem: picking a value in the pin
dropdown (whose options are the current `xAxisValueOptions`), clearing the
pin (the empty option), or the prev/next buttons. -/
inductive CursorEvent (X : Type) where
  | selectPin (v : X)
  | clearPin
  | prevBtn
  | nextBtn

/-- One event's effect on `pinnedXValue`, given the option list `xs` in
effect when the event fires (lines 378–403 for the dropdown, 360–377 and
423–444 for the buttons). -/
def cursorStep (xs : List X) (pinned : Option X) : CursorEvent X → Option X
  | .selectPin v => some v
  | .clearPin => none
  | .prevBtn => prevClick xs pinned
  | .nextBtn => nextClick xs pinned

/-- Validity of an event: the dropdown only offers members of the option
list in effect when it is used. -/
def validEvent (xs : List X) : CursorEvent X → Bool
  | .selectPin v => decide (v ∈ xs)
  | _ => true

/-- A run of the cursor subsystem: fold the events, each paired with the
option list current when it fired, starting from the unset pin. -/
def runCursor (steps : List (List X × CursorEvent X)) : Option X :=
  steps.foldl (fun p s => cursorStep s.1 p s.2) none

/-- C7 counterexample: pin `10` while the option list is `[0, 10]` (a valid
event), then let the data change so that the current option list becomes
`[0, 5]`.  The pin is left as-is, so the reachable state holds `some 10`,
which is neither `null` nor a member of the current list — the claimed
invariant fails across recomputations of `xs`. -/
theorem C7_counterexample_stale_pin :
    runCursor [([0, 10], CursorEvent.selectPin (10 : ℤ))] = some 10
    ∧ validEvent [0, 10] (CursorEvent.selectPin (10 : ℤ)) = true
    ∧ ¬ (runCursor [([0, 10], CursorEvent.selectPin (10 : ℤ))] = none
        ∨ ∃ v ∈ ([0, 5] : List ℤ),
            runCursor [([0, 10], CursorEvent.selectPin (10 : ℤ))] = some v) := by
  refine ⟨by decide, by decide, by decide⟩

/-- C7 amended: after any single valid cursor event, the new pin is `null`,
or unchanged, or a member of the option list that was current when the
event fired.  A pin can therefore only reference a value that was in some
previous option list; when the option list is later recomputed the pin
persists unchanged and may be absent from the new list (stale). -/
theorem C7_pin_membership_amended :
    ∀ (xs : List ℤ) (pinned : Option ℤ) (e : CursorEvent ℤ),
      validEvent xs e = true →
      (cursorStep xs pinned e = none
      ∨ cursorStep xs pinned e = pinned
      ∨ ∃ v ∈ xs, cursorStep xs pinned e = some v) := by
  intro xs pinned e hvalid
  cases e with
  | selectPin v =>
    right; right
    exact ⟨v, of_decide_eq_true hvalid, rfl⟩
  | clearPin => left; rfl
  | prevBtn =>
    have hstep : cursorStep xs pinned CursorEvent.prevBtn = prevClick xs pinned := rfl
    rw [hstep, prevClick]
    by_cases h1 : xs.length = 0
    · rw [if_pos h1]
      right; left; rfl
    · rw [if_neg h1]
      by_cases h2 : pinnedIndex xs pinned ≤ 0
      · rw [if_pos h2]
        right; left; rfl
      · rw [if_neg h2]
        right; right
        have hne : pinnedIndex xs pinned ≠ -1 := by omega
        obtain ⟨h0, hlt⟩ := pinnedIndex_ne_spec xs pinned hne
        exact ⟨_, getD_mem_of_lt xs (pinnedIndex xs pinned - 1).toNat (by omega), rfl⟩
  | nextBtn =>
    have hstep : cursorStep xs pinned CursorEvent.nextBtn = nextClick xs pinned := rfl
    rw [hstep, nextClick]
    by_cases h1 : xs.length = 0
    · rw [if_pos h1]
      right; left; rfl
    · rw [if_neg h1]
      by_cases h2 : pinnedIndex xs pinned = -1
      · rw [if_pos h2]
        right; right
        exact ⟨_, getD_mem_of_lt xs 0 (Nat.pos_of_ne_zero h1), rfl⟩
      · rw [if_neg h2]
        by_cases h3 : (xs.length : Int) - 1 ≤ pinnedIndex xs pinned
        · rw [if_pos h3]
          right; left; rfl
        · rw [if_neg h3]
          right; right
          obtain ⟨h0, hlt⟩ := pinnedIndex_ne_spec xs pinned h2
          exact ⟨_, getD_mem_of_lt xs (pinnedIndex xs pinned + 1).toNat (by omega), rfl⟩

theorem C7_pin_membership_amended_witness :
    cursorStep [0, 10] none (CursorEvent.selectPin (10 : ℤ)) = some 10 := by
  have h := C7_pin_membership_amended [0, 10] none
      (CursorEvent.selectPin 10) (by decide)
  rcases h with h | h | ⟨v, hv, hvs⟩
  · exact absurd h (by decide)
  · exact absurd h (by decide)
  · have h10 : some (10 : ℤ) = some v := by
      rw [← hvs]
      rfl
    rw [hvs]
    exact h10.symm

/-- C10: a set-but-stale pin (a pinned value absent from the current sorted
distinct option list) makes `pinnedIndex` resolve to `-1`, so navigation
treats it exactly like an unset pin: `prev` is a no-op, and `next` pins the
first value `xs[0]` (a no-op only when the list is empty) rather than a
neighbor of the stale value. -/
theorem C10_stale_pin_navigation :
    ∀ (xs : List ℤ) (v : ℤ),
      xs.Sorted (· ≤ ·) → xs.Nodup → v ∉ xs →
      (pinnedIndex xs (some v) = -1
      ∧ prevClick xs (some v) = some v
      ∧ (xs ≠ [] → nextClick xs (some v) = some (xs.getD 0 default))
      ∧ (xs = [] → nextClick xs (some v) = some v)) := by
  intro xs v _ _ hmem
  have hp : pinnedIndex xs (some v) = -1 := (jsIndexOf_eq_neg_one_iff xs v).mpr hmem
  refine ⟨hp, ?_, ?_, ?_⟩
  · by_cases h1 : xs.length = 0
    · rw [prevClick, if_pos h1]
    · rw [prevClick, if_neg h1, if_pos (by rw [hp]; decide)]
  · intro hxs
    have hlen : xs.length ≠ 0 := fun h => hxs (List.length_eq_zero.mp h)
    rw [nextClick, if_neg hlen, if_pos hp]
  · intro hxs
    subst hxs
    rfl

theorem C10_stale_pin_navigation_witness :
    prevClick [0, 10] (some (5 : ℤ)) = some 5
    ∧ nextClick [0, 10] (some (5 : ℤ)) = some 0 := by
  have h := C10_stale_pin_navigation [0, 10] 5 (by decide) (by decide) (by decide)
  refine ⟨h.2.1, ?_⟩
  rw [h.2.2.1 (by decide)]
  decide

end Cursor



/-! ### C3: layout resize weight redistribution

ComparisonCharts.tsx lines 889–952 (`onMouseDown` of the per-panel resize
handle) and in particular the multi-panel branch of its `onMouseMove`
(lines 918–941).  The `rowLen` parameter is the code's `row.length`; the
claim's setting — a row of `n > 1` rendered panels whose weight array has
one weight per panel — corresponds to `rowLen = startWidths.length`
(normalizeRowSize keeps `widths.length` equal to the number of rendered
panels). -/

/-- The clamped `nextWeight`: `Math.min(Math.max(startWidths[index] +
deltaWeight, minWeight), maxWeight)` with `deltaWeight = (dx / rowWidth) *
totalWeight`, `minWeight = 0.5`, `maxWeight = totalWeight - minWeight *
(row.length - 1)`.  (`getD` default is unreachable: `index` is a valid
panel index.) -/
def nextWeightOf (startWidths : List ℚ) (rowLen idx : ℕ) (dx rowWidth : ℚ) : ℚ :=
  min (max (startWidths.getD idx 0 + (dx / rowWidth) * startWidths.sum) (1/2))
    (startWidths.sum - (1/2) * ((rowLen : ℚ) - 1))

/-- The weight redistribution of the multi-panel branch: the dragged panel
gets `nextWeight`; if `remainingStart <= 0` the remaining weight is split
evenly over the other `row.length - 1` panels, otherwise each other panel
is scaled by `remainingNext / remainingStart`. -/
def redistributeWidths (startWidths : List ℚ) (rowLen idx : ℕ)
    (dx rowWidth : ℚ) : List ℚ :=
  let nextWeight := nextWeightOf startWidths rowLen idx dx rowWidth
  let remainingStart := startWidths.sum - startWidths.getD idx 0
  let remainingNext := startWidths.sum - nextWeight
  if remainingStart ≤ 0 then
    startWidths.mapIdx fun i _ =>
      if i = idx then nextWeight else remainingNext / ((rowLen : ℚ) - 1)
  else
    startWidths.mapIdx fun i w =>
      if i = idx then nextWeight else (w / remainingStart) * remainingNext

/-- Sum of a list rebuilt by `mapIdx`, pinning index `idx` to `c` and
transforming every other element by `f`. -/
theorem sum_mapIdx_pin (ws : List ℚ) (idx : ℕ) (h : idx < ws.length)
    (c : ℚ) (f : ℚ → ℚ) :
    (ws.mapIdx fun i w => if i = idx then c else f w).sum
      = c + ((ws.map f).sum - f (ws.get ⟨idx, h⟩)) := by
  rw [List.mapIdx_eq_ofFn, Fin.sum_ofFn]
  have hmap : (ws.map f).sum = ∑ i : Fin ws.length, f (ws.get i) := by
    conv_lhs => rw [← List.ofFn_get ws]
    rw [List.map_ofFn, Fin.sum_ofFn]
    rfl
  rw [hmap]
  rw [← Finset.add_sum_erase Finset.univ
      (fun i : Fin ws.length => if (i : ℕ) = idx then c else f (ws.get i))
      (Finset.mem_univ ⟨idx, h⟩)]
  congr 1
  · exact if_pos rfl
  · have hsub : ∑ i ∈ Finset.univ.erase (⟨idx, h⟩ : Fin ws.length), f (ws.get i)
        = (∑ i : Fin ws.length, f (ws.get i)) - f (ws.get ⟨idx, h⟩) := by
      have hadd := Finset.add_sum_erase Finset.univ
        (fun i : Fin ws.length => f (ws.get i)) (Finset.mem_univ ⟨idx, h⟩)
      linarith [hadd]
    rw [hsub.symm]
    refine Finset.sum_congr rfl ?_
    intro i hi
    exact if_neg fun hh => (Finset.mem_erase.mp hi).1 (Fin.ext hh)

theorem sum_map_const_rat (ws : List ℚ) (e : ℚ) :
    (ws.map fun _ => e).sum = (ws.length : ℚ) * e := by
  induction ws with
  | nil => simp
  | cons a tl ih =>
    rw [List.map_cons, List.sum_cons, ih, List.length_cons]
    push_cast
    ring

theorem sum_map_div_mul (ws : List ℚ) (a b : ℚ) :
    (ws.map fun w => (w / a) * b).sum = (ws.sum / a) * b := by
  induction ws with
  | nil => simp
  | cons x tl ih =>
    rw [List.map_cons, List.sum_cons, ih, List.sum_cons]
    ring

theorem sum_mapIdx_even (ws : List ℚ) (idx : ℕ) (h : idx < ws.length)
    (c e : ℚ) :
    (ws.mapIdx fun i _ => if i = idx then c else e).sum
      = c + ((ws.length : ℚ) * e - e) := by
  have h1 := sum_mapIdx_pin ws idx h c fun _ => e
  rw [sum_map_const_rat] at h1
  exact h1

theorem sum_mapIdx_scale (ws : List ℚ) (idx : ℕ) (h : idx < ws.length)
    (c a b : ℚ) :
    (ws.mapIdx fun i w => if i = idx then c else (w / a) * b).sum
      = c + ((ws.sum / a) * b - (ws.get ⟨idx, h⟩ / a) * b) := by
  have h1 := sum_mapIdx_pin ws idx h c fun w => (w / a) * b
  rw [sum_map_div_mul] at h1
  exact h1

/-- C3: for every multi-panel resize step (a row of `n > 1` panels with
positive start weights, any dragged panel index and any pointer delta) the
redistributed weights sum to the row's original `totalWeight`: weight is
conserved by whichever of the even-split and proportional-scaling branches
executes. -/
theorem C3_resize_weight_conservation :
    ∀ (startWidths : List ℚ) (idx : ℕ) (dx rowWidth : ℚ),
      idx < startWidths.length → 1 < startWidths.length →
      (∀ w ∈ startWidths, 0 < w) →
      (redistributeWidths startWidths startWidths.length idx dx rowWidth).sum
        = startWidths.sum := by
  intro ws idx dx rowWidth hidx hn _
  have hw0 : ws.getD idx 0 = ws.get ⟨idx, hidx⟩ := by
    rw [List.getD_eq_get?, List.get?_eq_get hidx, Option.getD_some]
  have hne1 : ((ws.length : ℚ) - 1) ≠ 0 := by
    have hq : (1 : ℚ) < (ws.length : ℚ) := by exact_mod_cast hn
    linarith
  simp only [redistributeWidths]
  by_cases hrs : ws.sum - ws.getD idx 0 ≤ 0
  · rw [if_pos hrs, sum_mapIdx_even ws idx hidx]
    field_simp
    ring
  · rw [if_neg hrs, sum_mapIdx_scale ws idx hidx]
    rw [hw0] at hrs
    have hpos : 0 < ws.sum - ws.get ⟨idx, hidx⟩ := by linarith [not_le.mp hrs]
    have hne : ws.sum - ws.get ⟨idx, hidx⟩ ≠ 0 := ne_of_gt hpos
    rw [hw0]
    have hne2 : ws.sum - ws[idx] ≠ 0 := by
      rw [List.get_eq_getElem] at hne
      exact hne
    field_simp [hne2]
    ring

theorem C3_resize_weight_conservation_witness :
    (redistributeWidths [1, 1, 1] 3 0 1 3).sum = ([1, 1, 1] : List ℚ).sum :=
  C3_resize_weight_conservation [1, 1, 1] 0 1 3 (by decide) (by decide)
    (by decide)


/-! ### C8 / C9: metric reordering

`reorderMetrics` (ComparisonCharts.tsx lines 285–295): on a drop event the
handler no-ops when the dragged and target metric coincide, computes
`ordered = activeMetrics.filter(m => m !== xAxisKey)`, looks both metrics up
with `indexOf` (returning `-1` when absent, which also no-ops), and
otherwise calls `splice(fromIndex, 1)` followed by
`splice(toIndex, 0, dragMetric)` and stores the result with
`setActiveMetrics`. -/

/-- The drop handler: note that on success the stored list is the
`xAxisKey`-filtered one. -/
def reorderMetrics (active : List MetricName) (xKey drag target : MetricName) :
    List MetricName :=
  if drag = target then active
  else
    let ordered := active.filter fun m => m != xKey
    if jsIndexOf ordered drag = -1 ∨ jsIndexOf ordered target = -1 then active
    else (ordered.eraseIdx (jsIndexOf ordered drag).toNat).insertIdx
      (jsIndexOf ordered target).toNat drag

/-- Claim model for C8, following the claim's words: remove `drag` from its
current position and reinsert it at the position currently occupied by
`target` (its index in the pre-reorder display order), preserving the
relative order of all other elements; a reorder onto itself is a no-op. -/
def reorderSpecModel (ordered : List MetricName) (drag target : MetricName) :
    List MetricName :=
  if drag = target then ordered
  else (ordered.filter fun m => m != drag).insertIdx
    (jsIndexOf ordered target).toNat drag

section ReorderLemmas

variable {X : Type} [DecidableEq X] [Inhabited X]

/-- For a duplicate-free list, erasing at the found index is the same as
filtering the element out. -/
theorem eraseIdx_jsIndexOf_eq_filter (l : List X) (a : X)
    (hnd : l.Nodup) (ha : a ∈ l) :
    l.eraseIdx (jsIndexOf l a).toNat = l.filter fun m => m != a := by
  induction l with
  | nil => cases ha
  | cons b tl ih =>
    by_cases hba : b = a
    · subst hba
      have hnotin : b ∉ tl := (List.nodup_cons.mp hnd).1
      have hidx : jsIndexOf (b :: tl) b = 0 := by
        rw [jsIndexOf, if_pos rfl]
      rw [hidx]
      rw [show ((0 : Int).toNat) = 0 from rfl, List.eraseIdx_cons_zero]
      have hb : (b != b) = false := by simp
      rw [List.filter_cons, hb, if_neg Bool.false_ne_true]
      symm
      rw [List.filter_eq_self]
      intro x hx
      simp only [bne_iff_ne, ne_eq]
      intro hxb
      exact hnotin (hxb ▸ hx)
    · have hmem : a ∈ tl := by
        cases ha with
        | head => exact absurd rfl hba
        | tail _ h' => exact h'
      have hr : jsIndexOf tl a ≠ -1 :=
        fun hh => absurd hmem ((jsIndexOf_eq_neg_one_iff tl a).mp hh)
      have h0 : 0 ≤ jsIndexOf tl a := jsIndexOf_nonneg_of_ne tl a hr
      have hidx : jsIndexOf (b :: tl) a = jsIndexOf tl a + 1 := by
        rw [jsIndexOf, if_neg hba, if_neg hr]
      rw [hidx]
      have htn : (jsIndexOf tl a + 1).toNat = (jsIndexOf tl a).toNat + 1 := by
        omega
      rw [htn, List.eraseIdx_cons_succ]
      have hb : (b != a) = true := by
        simpa using hba
      rw [List.filter_cons, hb, if_pos rfl]
      rw [ih (List.nodup_cons.mp hnd).2 hmem]

/-- Consing the removed element back onto the erased list permutes the
original (no `Nodup` needed: `jsIndexOf` finds the first occurrence). -/
theorem cons_eraseIdx_jsIndexOf_perm (l : List X) (a : X) (h : a ∈ l) :
    (a :: l.eraseIdx (jsIndexOf l a).toNat).Perm l := by
  induction l with
  | nil => cases h
  | cons b tl ih =>
    by_cases hba : b = a
    · subst hba
      have hidx : jsIndexOf (b :: tl) b = 0 := by
        rw [jsIndexOf, if_pos rfl]
      rw [hidx, show ((0 : Int).toNat) = 0 from rfl, List.eraseIdx_cons_zero]
    · have hmem : a ∈ tl := by
        cases h with
        | head => exact absurd rfl hba
        | tail _ h' => exact h'
      have hr : jsIndexOf tl a ≠ -1 :=
        fun hh => absurd hmem ((jsIndexOf_eq_neg_one_iff tl a).mp hh)
      have h0 : 0 ≤ jsIndexOf tl a := jsIndexOf_nonneg_of_ne tl a hr
      have hidx : jsIndexOf (b :: tl) a = jsIndexOf tl a + 1 := by
        rw [jsIndexOf, if_neg hba, if_neg hr]
      rw [hidx]
      have htn : (jsIndexOf tl a + 1).toNat = (jsIndexOf tl a).toNat + 1 := by
        omega
      rw [htn, List.eraseIdx_cons_succ]
      exact (List.Perm.swap b a _).trans (List.Perm.cons b (ih hmem))

/-- Inserting anywhere within bounds permutes consing at the front. -/
theorem insertIdx_perm_cons (x : X) :
    ∀ (n : ℕ) (l : List X), n ≤ l.length → (l.insertIdx n x).Perm (x :: l)
  | 0, l, _ => by
    rw [List.insertIdx_zero]
  | n + 1, [], h => by
    simp at h
  | n + 1, b :: tl, h => by
    rw [List.insertIdx_succ_cons]
    exact (List.Perm.cons b
        (insertIdx_perm_cons x n tl (Nat.le_of_succ_le_succ h))).trans
      (List.Perm.swap x b tl)

end ReorderLemmas

/-- C8: for a duplicate-free display order (the `xAxisKey`-free metric list)
containing both metrics, a reorder realizes exactly the claimed operation —
remove the dragged metric and reinsert it at the position the target
occupied, preserving the relative order of all other elements — it no-ops
when dragged and target coincide, and Scenario C holds: reordering `acc`
onto `loss` in `[loss, acc, reward]` yields `[acc, loss, reward]`. -/
theorem C8_reorder_metrics :
    ∀ (order : List MetricName) (xKey drag target : MetricName),
      xKey ∉ order → order.Nodup → drag ∈ order → target ∈ order →
      (reorderMetrics order xKey drag target = reorderSpecModel order drag target
      ∧ (drag = target → reorderMetrics order xKey drag target = order)
      ∧ reorderMetrics ["loss", "acc", "reward"] "_step" "acc" "loss"
          = ["acc", "loss", "reward"]) := by
  intro order xKey drag target hxk hnd hdrag htarget
  have hfilter : (order.filter fun m => m != xKey) = order := by
    rw [List.filter_eq_self]
    intro a ha
    simp only [bne_iff_ne, ne_eq]
    intro hak
    exact hxk (hak ▸ ha)
  refine ⟨?_, ?_, by decide⟩
  · by_cases hdt : drag = target
    · rw [reorderMetrics, if_pos hdt, reorderSpecModel, if_pos hdt]
    · rw [reorderMetrics, if_neg hdt, reorderSpecModel, if_neg hdt]
      simp only [hfilter]
      have hfi : jsIndexOf order drag ≠ -1 :=
        fun hh => absurd hdrag ((jsIndexOf_eq_neg_one_iff order drag).mp hh)
      have hti : jsIndexOf order target ≠ -1 :=
        fun hh => absurd htarget ((jsIndexOf_eq_neg_one_iff order target).mp hh)
      rw [if_neg (not_or.mpr ⟨hfi, hti⟩)]
      rw [eraseIdx_jsIndexOf_eq_filter order drag hnd hdrag]
  · intro hdt
    rw [reorderMetrics, if_pos hdt]

theorem C8_reorder_metrics_witness :
    reorderMetrics ["loss", "acc", "reward"] "_step" "acc" "loss"
      = ["acc", "loss", "reward"] :=
  (C8_reorder_metrics ["loss", "acc", "reward"] "_step" "acc" "loss"
    (by decide) (by decide) (by decide) (by decide)).2.2

/-- The pieces of core state the reorder handler could conceivably touch:
it only ever calls `setActiveMetrics`. -/
structure CoreState where
  activeMetrics : List MetricName
  xAxisKey : MetricName
  pinnedXValue : Option ℚ
  hoveredXValue : Option ℚ
  columns : ℕ

/-- A drop event on the whole core state: `reorderMetrics` stores its result
through `setActiveMetrics` and nothing else. -/
def reorderStep (s : CoreState) (drag target : MetricName) : CoreState :=
  { s with activeMetrics := reorderMetrics s.activeMetrics s.xAxisKey drag target }

/-- C9 counterexample: with `activeMetrics = [step, loss, acc]` and
`xAxisKey = step`, reordering `acc` onto `loss` stores the filtered list
`[acc, loss]` — the x-axis key `step`, which was among the active metrics,
is dropped, so the multiset of active metrics is not preserved. -/
theorem C9_counterexample_reorder_drops_xaxis :
    reorderMetrics ["step", "loss", "acc"] "step" "acc" "loss" = ["acc", "loss"]
    ∧ ¬ (reorderMetrics ["step", "loss", "acc"] "step" "acc" "loss").Perm
        ["step", "loss", "acc"] := by
  have h2 : reorderMetrics ["step", "loss", "acc"] "step" "acc" "loss"
      = ["acc", "loss"] := by decide
  refine ⟨h2, ?_⟩
  intro hperm
  rw [h2] at hperm
  have hlen := hperm.length_eq
  simp at hlen

/-- C9 amended: a reorder event mutates the active-metric list only — the
x-axis key, pin, hover and column state are untouched — and the new
active-metric list is either unchanged (the no-op guards) or a permutation
of the previous active metrics with the current x-axis key filtered out; in
particular, when the x-axis key was itself among the active metrics it is
removed by the reorder. -/
theorem C9_reorder_frame_amended :
    ∀ (s : CoreState) (drag target : MetricName),
      ((reorderStep s drag target).xAxisKey = s.xAxisKey
      ∧ (reorderStep s drag target).pinnedXValue = s.pinnedXValue
      ∧ (reorderStep s drag target).hoveredXValue = s.hoveredXValue
      ∧ (reorderStep s drag target).columns = s.columns)
      ∧ ((reorderStep s drag target).activeMetrics = s.activeMetrics
        ∨ (reorderStep s drag target).activeMetrics.Perm
            (s.activeMetrics.filter fun m => m != s.xAxisKey)) := by
  intro s drag target
  refine ⟨⟨rfl, rfl, rfl, rfl⟩, ?_⟩
  show reorderMetrics s.activeMetrics s.xAxisKey drag target = s.activeMetrics
    ∨ (reorderMetrics s.activeMetrics s.xAxisKey drag target).Perm
        (s.activeMetrics.filter fun m => m != s.xAxisKey)
  rw [reorderMetrics]
  by_cases hdt : drag = target
  · rw [if_pos hdt]
    left
    rfl
  · rw [if_neg hdt]
    by_cases hguard :
        jsIndexOf (s.activeMetrics.filter fun m => m != s.xAxisKey) drag = -1
        ∨ jsIndexOf (s.activeMetrics.filter fun m => m != s.xAxisKey) target = -1
    · rw [if_pos hguard]
      left
      rfl
    · rw [if_neg hguard]
      right
      rw [not_or] at hguard
      obtain ⟨hfi, hti⟩ := hguard
      have hdragmem : drag ∈ s.activeMetrics.filter fun m => m != s.xAxisKey := by
        by_contra hmem
        exact hfi ((jsIndexOf_eq_neg_one_iff _ drag).mpr hmem)
      obtain ⟨ht0, htlt, _⟩ :=
        jsIndexOf_spec (s.activeMetrics.filter fun m => m != s.xAxisKey) target hti
      obtain ⟨hf0, hflt, _⟩ :=
        jsIndexOf_spec (s.activeMetrics.filter fun m => m != s.xAxisKey) drag hfi
      have herlen :
          ((s.activeMetrics.filter fun m => m != s.xAxisKey).eraseIdx
              (jsIndexOf (s.activeMetrics.filter fun m => m != s.xAxisKey) drag).toNat).length
            = (s.activeMetrics.filter fun m => m != s.xAxisKey).length - 1 :=
        List.length_eraseIdx_of_lt (by omega)
      refine (insertIdx_perm_cons drag _ _ ?_).trans
        (cons_eraseIdx_jsIndexOf_perm _ drag hdragmem)
      rw [herlen]
      omega


end LowVR
